import Mathlib

/-
Verification development for the miner worker pipeline (package miner).
The Go source is shallowly embedded: machine-word counters become Nat/Int,
channel sends and collaborator calls become explicit state threading and
function parameters, and each event loop becomes a step function over an
explicit state type.
-/

namespace Miner

/-- Account address (common.Address), abstracted as a Nat; 0 stands for the
all-zero address common.Address{}. -/
abbrev Address := Nat

/-- A transaction, reduced to the fields the worker reads: its resolved
sender, nonce, gas price, and the replay-protection flag tx.Protected(). -/
structure Transaction where
  sender : Address
  nonce : Nat
  price : Nat
  protectedFlag : Bool
deriving DecidableEq

/-- A transaction-origin resolver (types.Signer). -/
abbrev Signer := Transaction → Address

/-- Modelled from the spec: types.NewMasterSigner (not under src/) is the
transaction-origin resolver used to derive sender addresses (spec section 3,
Build Environment signer). -/
def masterSigner : Signer := fun tx => tx.sender

/-- Candidate block header (types.Header), reduced to the fields commitNewWork
writes: parent hash, number, extra data, timestamp, coinbase. A header built
by the Go literal has zero coinbase unless assigned. -/
structure Header where
  parentHash : Nat
  number : Nat
  extra : List Nat
  time : Int
  coinbase : Address
deriving DecidableEq

/-- Modelled from the spec: types.NewBlock / engine.Finalize assemble a
sealable block from header plus transactions (spec sections 4.5 and 6). -/
structure Block where
  header : Header
  txlist : List Transaction
deriving DecidableEq

/-- The worker's per-cycle environment (struct environment in the source). -/
structure Environment where
  signer : Signer
  tcount : Nat
  header : Header
  txs : List Transaction

/-- The interrupt-signal constants (commitInterruptNone / NewHead / Resubmit,
an int32 iota in the source). -/
def commitInterruptNone : Nat := 0

/-- Abort reason: a new chain head arrived; discard partial work. -/
def commitInterruptNewHead : Nat := 1

/-- Abort reason: periodic resubmit; keep partial work. -/
def commitInterruptResubmit : Nat := 2

/-- Modelled from the spec: the lazy price-and-nonce merge structure
(types.TransactionsByPriceAndNonce, not under src/) is a collection of
per-sender queues, each in nonce order (spec section 4.3 step 7). -/
abbrev TxQ := List (List Transaction)

/-- Locate the best head transaction of the merge: among the nonempty
per-sender queues, the one whose head offers the highest price (first queue
wins ties). Returns the decomposition (prefix, best head, rest of that
sender's queue, suffix). Modelled from the spec (section 4.3 step 7). -/
def txqBestSplit : TxQ → Option (TxQ × Transaction × List Transaction × TxQ)
  | [] => none
  | [] :: rest =>
    (txqBestSplit rest).map (fun x => ([] :: x.1, x.2.1, x.2.2.1, x.2.2.2))
  | (t :: tl) :: rest =>
    match txqBestSplit rest with
    | none => some ([], t, tl, rest)
    | some (p, u, utl, s) =>
      if t.price < u.price then some ((t :: tl) :: p, u, utl, s)
      else some ([], t, tl, rest)

/-- Peek (types.TransactionsByPriceAndNonce.Peek): best head, if any. -/
def txqPeek (q : TxQ) : Option Transaction :=
  (txqBestSplit q).map (fun x => x.2.1)

/-- Shift (types.TransactionsByPriceAndNonce.Shift): advance within the best
head's sender, dropping the sender when exhausted. Modelled from the spec. -/
def txqShift (q : TxQ) : TxQ :=
  match txqBestSplit q with
  | none => q
  | some (p, _, tl, s) => p ++ (if tl.isEmpty then s else tl :: s)

/-- Pop (types.TransactionsByPriceAndNonce.Pop): drop the best head's sender
entirely. Modelled from the spec. -/
def txqPop (q : TxQ) : TxQ :=
  match txqBestSplit q with
  | none => q
  | some (p, _, _, s) => p ++ s

/-- Total number of candidate transactions remaining in the merge. -/
def txqSize (q : TxQ) : Nat := (q.map List.length).sum

theorem txqSize_append (a b : TxQ) :
    txqSize (a ++ b) = txqSize a + txqSize b := by
  simp [txqSize]

theorem txqBestSplit_decomp :
    ∀ {q p t tl s}, txqBestSplit q = some (p, t, tl, s) →
      q = p ++ (t :: tl) :: s := by
  intro q
  induction q with
  | nil => intro p t tl s h; simp [txqBestSplit] at h
  | cons l rest ih =>
    intro p t tl s h
    cases l with
    | nil =>
      simp only [txqBestSplit] at h
      cases hr : txqBestSplit rest with
      | none => simp [hr] at h
      | some x =>
        obtain ⟨p', t', tl', s'⟩ := x
        simp only [hr, Option.map_some', Option.some_inj, Prod.mk.injEq] at h
        obtain ⟨hp, ht, htl, hs⟩ := h
        subst hp; subst ht; subst htl; subst hs
        simpa using congrArg (List.cons ([] : List Transaction)) (ih hr)
    | cons a as =>
      simp only [txqBestSplit] at h
      cases hr : txqBestSplit rest with
      | none =>
        simp only [hr, Option.some_inj, Prod.mk.injEq] at h
        obtain ⟨hp, ht, htl, hs⟩ := h
        subst hp; subst ht; subst htl; subst hs
        simp
      | some x =>
        obtain ⟨p', t', tl', s'⟩ := x
        rw [hr] at h
        by_cases hlt : a.price < t'.price
        · simp only [hlt, if_true, Option.some_inj, Prod.mk.injEq] at h
          obtain ⟨hp, ht, htl, hs⟩ := h
          subst hp; subst ht; subst htl; subst hs
          simpa using congrArg (List.cons (a :: as)) (ih hr)
        · simp only [hlt, if_false, Option.some_inj, Prod.mk.injEq] at h
          obtain ⟨hp, ht, htl, hs⟩ := h
          subst hp; subst ht; subst htl; subst hs
          simp

theorem txqPop_size {q : TxQ} {p t tl s}
    (h : txqBestSplit q = some (p, t, tl, s)) :
    txqSize (txqPop q) < txqSize q := by
  have hd := txqBestSplit_decomp h
  rw [txqPop, h, hd, txqSize_append, txqSize_append]
  simp only [txqSize, List.map_cons, List.sum_cons, List.length_cons]
  omega

theorem txqShift_size {q : TxQ} {p t tl s}
    (h : txqBestSplit q = some (p, t, tl, s)) :
    txqSize (txqShift q) < txqSize q := by
  have hd := txqBestSplit_decomp h
  rw [txqShift, h, hd, txqSize_append, txqSize_append]
  cases tl with
  | nil =>
    simp only [List.isEmpty_nil, if_true, txqSize, List.map_cons,
      List.sum_cons, List.length_nil, List.length_cons]
    omega
  | cons b bs =>
    simp only [List.isEmpty_cons, if_false, txqSize, txqSize_append,
      List.map_cons, List.sum_cons, List.length_cons, Bool.false_eq_true]
    omega

/-- Whether the interrupt pointer is non-null and holds a non-none value at
poll point i. The signal is embedded as the sequence of values the atomic
loads observe: poll i of the loop observes f i (the loads within a single
iteration observe the same value). -/
def intrFired (intr : Option (Nat → Nat)) (i : Nat) : Bool :=
  match intr with
  | some f => f i != commitInterruptNone
  | none => false

/-- Whether the interrupt value observed at poll i equals new-head. -/
def intrNewHead (intr : Option (Nat → Nat)) (i : Nat) : Bool :=
  match intr with
  | some f => f i == commitInterruptNewHead
  | none => false

/-- commitTransaction: the transaction-apply step. In the source the state
transition is stubbed out; the transaction is appended to the environment's
transaction list and a nil error is returned. -/
def commitTransaction (env : Environment) (tx : Transaction) (cb : Address) :
    Option String × Environment :=
  (none, { env with txs := env.txs ++ [tx] })

/-- Result of the commitTransactions loop over one environment: the returned
bool, the final environment, the final (consumed) merge queue, and the number
of loop iterations performed (instrumentation; each iteration is one poll of
the interrupt signal when one is attached). -/
structure CTState where
  aborted : Bool
  env : Environment
  txq : TxQ
  iters : Nat

/-- The for-loop of commitTransactions, with the mutated w.current and the
consumed merge queue threaded explicitly; i counts iterations already done. -/
def ctLoop (intr : Option (Nat → Nat)) (cb : Address) (env : Environment)
    (q : TxQ) (i : Nat) : CTState :=
  if intrFired intr i then
    ⟨intrNewHead intr i, env, q, i + 1⟩
  else
    match h : txqBestSplit q with
    | none => ⟨false, env, q, i + 1⟩
    | some (_, t, _, _) =>
      if t.protectedFlag then
        ctLoop intr cb env (txqPop q) (i + 1)
      else
        match commitTransaction env t cb with
        | (none, env') =>
          ctLoop intr cb { env' with tcount := env'.tcount + 1 } (txqShift q)
            (i + 1)
        | (some _, env') => ctLoop intr cb env' (txqShift q) (i + 1)
termination_by txqSize q
decreasing_by
  · exact txqPop_size h
  · exact txqShift_size h
  · exact txqShift_size h

/-- Result of commitTransactions: returned bool, final w.current, final merge
queue, iteration count. -/
structure CTResult where
  aborted : Bool
  current : Option Environment
  txq : TxQ
  iters : Nat

/-- commitTransactions: short-circuits to true when w.current is nil,
otherwise runs the commit loop over the merge queue. -/
def commitTransactions (current : Option Environment) (q : TxQ) (cb : Address)
    (intr : Option (Nat → Nat)) : CTResult :=
  match current with
  | none => ⟨true, none, q, 0⟩
  | some env =>
    let r := ctLoop intr cb env q 0
    ⟨r.aborted, some r.env, r.txq, r.iters⟩

theorem ctLoop_fired {intr : Option (Nat → Nat)} {cb : Address}
    {env : Environment} {q : TxQ} {i : Nat}
    (hf : intrFired intr i = true) :
    ctLoop intr cb env q i = ⟨intrNewHead intr i, env, q, i + 1⟩ := by
  rw [ctLoop]; simp [hf]

theorem ctLoop_exhausted {intr : Option (Nat → Nat)} {cb : Address}
    {env : Environment} {q : TxQ} {i : Nat}
    (hf : intrFired intr i = false) (hs : txqBestSplit q = none) :
    ctLoop intr cb env q i = ⟨false, env, q, i + 1⟩ := by
  rw [ctLoop]; simp only [hf, Bool.false_eq_true, if_false]
  split
  · rfl
  · rename_i p t tl s heq
    rw [hs] at heq; simp at heq

theorem ctLoop_skip_protected {intr : Option (Nat → Nat)} {cb : Address}
    {env : Environment} {q : TxQ} {i : Nat} {p : TxQ} {t : Transaction}
    {tl : List Transaction} {s : TxQ}
    (hf : intrFired intr i = false) (hs : txqBestSplit q = some (p, t, tl, s))
    (hp : t.protectedFlag = true) :
    ctLoop intr cb env q i = ctLoop intr cb env (txqPop q) (i + 1) := by
  rw [ctLoop]; simp only [hf, Bool.false_eq_true, if_false]
  split
  · rename_i heq; rw [hs] at heq; simp at heq
  · rename_i p' t' tl' s' heq
    rw [hs] at heq
    simp only [Option.some_inj, Prod.mk.injEq] at heq
    obtain ⟨hp', ht', htl', hs'⟩ := heq
    subst ht'
    simp [hp]

theorem ctLoop_commit {intr : Option (Nat → Nat)} {cb : Address}
    {env : Environment} {q : TxQ} {i : Nat} {p : TxQ} {t : Transaction}
    {tl : List Transaction} {s : TxQ}
    (hf : intrFired intr i = false) (hs : txqBestSplit q = some (p, t, tl, s))
    (hp : t.protectedFlag = false) :
    ctLoop intr cb env q i =
      ctLoop intr cb
        { env with tcount := env.tcount + 1, txs := env.txs ++ [t] }
        (txqShift q) (i + 1) := by
  rw [ctLoop]; simp only [hf, Bool.false_eq_true, if_false]
  split
  · rename_i heq; rw [hs] at heq; simp at heq
  · rename_i p' t' tl' s' heq
    rw [hs] at heq
    simp only [Option.some_inj, Prod.mk.injEq] at heq
    obtain ⟨hp', ht', htl', hs'⟩ := heq
    subst ht'
    simp [hp, commitTransaction]

theorem ctLoop_iters_lower (intr : Option (Nat → Nat)) (cb : Address)
    (env : Environment) (q : TxQ) (i : Nat) :
    i + 1 ≤ (ctLoop intr cb env q i).iters := by
  refine ctLoop.induct intr cb
    (fun env q i => i + 1 ≤ (ctLoop intr cb env q i).iters)
    ?_ ?_ ?_ ?_ ?_ env q i
  · intro env q i hf
    rw [ctLoop_fired hf]
  · intro env q i hf hs
    rw [ctLoop_exhausted (Bool.not_eq_true _ ▸ hf) hs]
  · intro env q i hf p t tl s hs hp ih
    rw [ctLoop_skip_protected (Bool.not_eq_true _ ▸ hf) hs hp]
    omega
  · intro env q i hf p t tl s hs hp env' hc ih
    have hpf : t.protectedFlag = false := Bool.not_eq_true _ ▸ hp
    rw [ctLoop_commit (Bool.not_eq_true _ ▸ hf) hs hpf]
    have hc' : env' = { env with txs := env.txs ++ [t] } := by
      simpa [commitTransaction] using hc.symm
    rw [hc'] at ih
    dsimp only at ih
    omega
  · intro env q i hf p t tl s hs hp e env' hc ih
    simp [commitTransaction] at hc

theorem txqPop_flatten {q : TxQ} {p t tl s}
    (h : txqBestSplit q = some (p, t, tl, s)) :
    (txqPop q).flatten = p.flatten ++ s.flatten := by
  rw [txqPop, h, List.flatten_append]

theorem txqShift_flatten {q : TxQ} {p t tl s}
    (h : txqBestSplit q = some (p, t, tl, s)) :
    (txqShift q).flatten = p.flatten ++ (tl ++ s.flatten) := by
  rw [txqShift, h]
  cases tl <;> simp [List.flatten_append]

theorem txq_flatten_decomp {q : TxQ} {p t tl s}
    (h : txqBestSplit q = some (p, t, tl, s)) :
    q.flatten = p.flatten ++ (t :: (tl ++ s.flatten)) := by
  rw [txqBestSplit_decomp h, List.flatten_append]
  simp

/-- Header and signer of the environment are never changed by the commit
loop: it only appends transactions and bumps the count. -/
theorem ctLoop_preserves {intr : Option (Nat → Nat)} (cb : Address)
    (env : Environment) (q : TxQ) (i : Nat) :
    (ctLoop intr cb env q i).env.header = env.header ∧
      (ctLoop intr cb env q i).env.signer = env.signer := by
  refine ctLoop.induct intr cb
    (fun env q i => (ctLoop intr cb env q i).env.header = env.header ∧
      (ctLoop intr cb env q i).env.signer = env.signer)
    ?_ ?_ ?_ ?_ ?_ env q i
  · intro env q i hf
    rw [ctLoop_fired hf]; exact ⟨rfl, rfl⟩
  · intro env q i hf hs
    rw [ctLoop_exhausted (Bool.not_eq_true _ ▸ hf) hs]; exact ⟨rfl, rfl⟩
  · intro env q i hf p t tl s hs hp ih
    rw [ctLoop_skip_protected (Bool.not_eq_true _ ▸ hf) hs hp]
    exact ih
  · intro env q i hf p t tl s hs hp env' hc ih
    have hpf : t.protectedFlag = false := Bool.not_eq_true _ ▸ hp
    rw [ctLoop_commit (Bool.not_eq_true _ ▸ hf) hs hpf]
    have hc' : env' = { env with txs := env.txs ++ [t] } := by
      simpa [commitTransaction] using hc.symm
    rw [hc'] at ih
    dsimp only at ih
    exact ih
  · intro env q i hf p t tl s hs hp e env' hc ih
    simp [commitTransaction] at hc

/-- Transaction conservation of the commit loop: counting any transaction
value, environment plus remaining queue never grows (transactions move from
the queue into the environment, or are dropped by the replay-protection
skip; nothing is duplicated). -/
theorem ctLoop_count (intr : Option (Nat → Nat)) (cb : Address)
    (env : Environment) (q : TxQ) (i : Nat) (a : Transaction) :
    (ctLoop intr cb env q i).env.txs.count a +
        (ctLoop intr cb env q i).txq.flatten.count a ≤
      env.txs.count a + q.flatten.count a := by
  refine ctLoop.induct intr cb
    (fun env q i => (ctLoop intr cb env q i).env.txs.count a +
        (ctLoop intr cb env q i).txq.flatten.count a ≤
      env.txs.count a + q.flatten.count a)
    ?_ ?_ ?_ ?_ ?_ env q i
  · intro env q i hf
    rw [ctLoop_fired hf]
  · intro env q i hf hs
    rw [ctLoop_exhausted (Bool.not_eq_true _ ▸ hf) hs]
  · intro env q i hf p t tl s hs hp ih
    rw [ctLoop_skip_protected (Bool.not_eq_true _ ▸ hf) hs hp]
    refine le_trans ih ?_
    rw [txqPop_flatten hs, txq_flatten_decomp hs]
    simp only [List.count_append, List.count_cons]
    omega
  · intro env q i hf p t tl s hs hp env' hc ih
    have hpf : t.protectedFlag = false := Bool.not_eq_true _ ▸ hp
    rw [ctLoop_commit (Bool.not_eq_true _ ▸ hf) hs hpf]
    have hc' : env' = { env with txs := env.txs ++ [t] } := by
      simpa [commitTransaction] using hc.symm
    rw [hc'] at ih
    dsimp only at ih
    rw [txqShift_flatten hs] at ih
    rw [txq_flatten_decomp hs]
    simp only [List.count_append, List.count_cons, List.count_nil] at ih ⊢
    omega
  · intro env q i hf p t tl s hs hp e env' hc ih
    simp [commitTransaction] at hc

/-- With a nil interrupt pointer the commit loop is never canceled: it
always runs the candidate source to exhaustion and reports false. -/
theorem ctLoop_no_interrupt (cb : Address) (env : Environment) (q : TxQ)
    (i : Nat) :
    (ctLoop none cb env q i).aborted = false ∧
      txqBestSplit (ctLoop none cb env q i).txq = none := by
  refine ctLoop.induct none cb
    (fun env q i => (ctLoop none cb env q i).aborted = false ∧
      txqBestSplit (ctLoop none cb env q i).txq = none)
    ?_ ?_ ?_ ?_ ?_ env q i
  · intro env q i hf
    simp [intrFired] at hf
  · intro env q i hf hs
    rw [ctLoop_exhausted (Bool.not_eq_true _ ▸ hf) hs]
    exact ⟨rfl, hs⟩
  · intro env q i hf p t tl s hs hp ih
    rw [ctLoop_skip_protected (Bool.not_eq_true _ ▸ hf) hs hp]
    exact ih
  · intro env q i hf p t tl s hs hp env' hc ih
    have hpf : t.protectedFlag = false := Bool.not_eq_true _ ▸ hp
    rw [ctLoop_commit (Bool.not_eq_true _ ▸ hf) hs hpf]
    have hc' : env' = { env with txs := env.txs ++ [t] } := by
      simpa [commitTransaction] using hc.symm
    rw [hc'] at ih
    dsimp only at ih
    exact ih
  · intro env q i hf p t tl s hs hp e env' hc ih
    simp [commitTransaction] at hc

/-- Poll discipline of the commit loop under a non-nil interrupt signal:
every iteration before the last observed value none; the loop aborts with
true exactly when the last observed value is new-head; and the final
iteration consumes no transaction (at most one transaction is appended per
earlier iteration). -/
theorem ctLoop_polls (f : Nat → Nat) (cb : Address) (env : Environment)
    (q : TxQ) (i : Nat) :
    (∀ j, i ≤ j → j + 1 < (ctLoop (some f) cb env q i).iters →
        f j = commitInterruptNone) ∧
      ((ctLoop (some f) cb env q i).aborted = true ↔
        f ((ctLoop (some f) cb env q i).iters - 1) = commitInterruptNewHead) ∧
      (ctLoop (some f) cb env q i).env.txs.length + i + 1 ≤
        env.txs.length + (ctLoop (some f) cb env q i).iters := by
  refine ctLoop.induct (some f) cb
    (fun env q i =>
      (∀ j, i ≤ j → j + 1 < (ctLoop (some f) cb env q i).iters →
          f j = commitInterruptNone) ∧
        ((ctLoop (some f) cb env q i).aborted = true ↔
          f ((ctLoop (some f) cb env q i).iters - 1) =
            commitInterruptNewHead) ∧
        (ctLoop (some f) cb env q i).env.txs.length + i + 1 ≤
          env.txs.length + (ctLoop (some f) cb env q i).iters)
    ?_ ?_ ?_ ?_ ?_ env q i
  · intro env q i hf
    rw [ctLoop_fired hf]
    dsimp only
    refine ⟨fun j hij hj => absurd hj (by omega), ?_, by omega⟩
    rw [Nat.add_sub_cancel]
    simp [intrNewHead, commitInterruptNewHead]
  · intro env q i hf hs
    rw [ctLoop_exhausted (Bool.not_eq_true _ ▸ hf) hs]
    dsimp only
    have hf0 : f i = commitInterruptNone := by
      have hff : intrFired (some f) i = false := by simpa using hf
      simpa [intrFired, commitInterruptNone] using hff
    refine ⟨fun j hij hj => absurd hj (by omega), ?_, by omega⟩
    rw [Nat.add_sub_cancel, hf0]
    simp [commitInterruptNone, commitInterruptNewHead]
  · intro env q i hf p t tl s hs hp ih
    have hf0 : f i = commitInterruptNone := by
      have hff : intrFired (some f) i = false := by simpa using hf
      simpa [intrFired, commitInterruptNone] using hff
    rw [ctLoop_skip_protected (Bool.not_eq_true _ ▸ hf) hs hp]
    obtain ⟨ih1, ih2, ih3⟩ := ih
    have hlow := ctLoop_iters_lower (some f) cb env (txqPop q) (i + 1)
    refine ⟨?_, ih2, by omega⟩
    intro j hij hj
    rcases Nat.eq_or_lt_of_le hij with heq | hlt
    · exact heq ▸ hf0
    · exact ih1 j hlt hj
  · intro env q i hf p t tl s hs hp env' hc ih
    have hf0 : f i = commitInterruptNone := by
      have hff : intrFired (some f) i = false := by simpa using hf
      simpa [intrFired, commitInterruptNone] using hff
    have hpf : t.protectedFlag = false := Bool.not_eq_true _ ▸ hp
    rw [ctLoop_commit (Bool.not_eq_true _ ▸ hf) hs hpf]
    have hc' : env' = { env with txs := env.txs ++ [t] } := by
      simpa [commitTransaction] using hc.symm
    rw [hc'] at ih
    dsimp only at ih
    obtain ⟨ih1, ih2, ih3⟩ := ih
    simp only [List.length_append, List.length_cons, List.length_nil] at ih3
    refine ⟨?_, ih2, by omega⟩
    intro j hij hj
    rcases Nat.eq_or_lt_of_le hij with heq | hlt
    · exact heq ▸ hf0
    · exact ih1 j hlt hj
  · intro env q i hf p t tl s hs hp e env' hc ih
    simp [commitTransaction] at hc

/-- The worker state touched by the embedded operations: the running flag,
the coinbase and extra configuration, the current cycle environment, the
published snapshot, and — as recorded effect lists — the tasks handed to the
sealing loop (taskCh sends) and the confirmation-tracker Shift calls. -/
structure Worker where
  running : Bool
  coinbase : Address
  extra : List Nat
  current : Option Environment
  snapshotBlock : Option Block
  tasksSent : List Block
  shifts : List Nat

/-- setCoinbase: store the coinbase under the worker's write lock. -/
def setCoinbase (w : Worker) (addr : Address) : Worker :=
  { w with coinbase := addr }

/-- updateSnapshot: publish types.NewBlock(current.header, current.txs) as
the pending snapshot. The source assumes w.current is non-nil here; every
call site establishes it. -/
def updateSnapshot (w : Worker) : Worker :=
  match w.current with
  | some env => { w with snapshotBlock := some ⟨env.header, env.txs⟩ }
  | none => w

/-- makeCurrent: install a fresh environment for the cycle (master signer,
zero count, empty transaction list); always returns a nil error. -/
def makeCurrent (w : Worker) (header : Header) : Worker :=
  { w with current := some ⟨masterSigner, 0, header, []⟩ }

/-- External collaborators of one construction cycle, passed as data:
the chain head, the wall clock (the two time.Now().Unix() reads), the block
hash function, the consensus engine's Prepare error, the Finalize error
(Modelled from the spec: on success Finalize assembles the block from
header plus transactions), and the transaction pool's Pending result
(already grouped by sender, as the Go map is). -/
structure Ctx where
  parent : Block
  nowUnix : Int
  now2 : Int
  hashOf : Block → Nat
  prepare : Header → Option String
  finalizeErr : Header → List Transaction → Option String
  pending : Except String (List (Address × List Transaction))

/-- commit: finalize the current environment into a block; on engine failure
return the error with nothing changed. If the engine is running, hand the
task to the sealing loop and shift the confirmation tracker to height − 1.
If update is requested, republish the snapshot. -/
def commit (c : Ctx) (w : Worker) (update : Bool) : Worker × Option String :=
  match w.current with
  | none => (w, none)
  | some env =>
    match c.finalizeErr env.header env.txs with
    | some err => (w, some err)
    | none =>
      let block : Block := ⟨env.header, env.txs⟩
      let w1 :=
        if w.running then
          { w with tasksSent := w.tasksSent ++ [block],
                   shifts := w.shifts ++ [block.header.number - 1] }
        else w
      (if update then updateSnapshot w1 else w1, none)

/-- Modelled from the spec: types.NewTransactionsByPriceAndNonce (not under
src/) turns the sender-grouped map into the lazy per-sender-queue merge
(spec section 4.3 step 7). -/
def newTxsByPriceAndNonce (groups : List (Address × List Transaction)) :
    TxQ :=
  groups.map (fun g => g.2)

/-- Trace of one commitNewWork run (instrumentation): which steps executed
and with what intermediate values. -/
structure NewWorkTrace where
  tstamp : Int
  slept : Option Int
  refusedNoCoinbase : Bool
  headerBuilt : Option Header
  prepareCalled : Bool
  prepareFailed : Bool
  madeCurrent : Bool
  emptyCommitRan : Bool
  pendingFailed : Bool
  pendingEmpty : Bool
  txEngineRan : Bool
  txAborted : Bool
  txIters : Nat
  fullCommitRan : Bool

/-- The base trace after the timestamp step, before any later step ran. -/
def baseTrace (tstamp : Int) (slept : Option Int) : NewWorkTrace :=
  ⟨tstamp, slept, false, none, false, false, false, false, false, false,
    false, false, 0, false⟩

/-- commitNewWork: one full block-template construction cycle. The returned
worker is the state after the run; the trace records what happened. -/
def commitNewWork (c : Ctx) (w : Worker) (intr : Option (Nat → Nat))
    (noempty : Bool) : Worker × NewWorkTrace :=
  let tstamp0 := c.nowUnix
  let tstamp :=
    if c.parent.header.time ≥ tstamp0 then c.parent.header.time + 1
    else tstamp0
  let slept :=
    if tstamp > c.now2 + 1 then some (tstamp - c.now2) else none
  let tr0 := baseTrace tstamp slept
  let header0 : Header :=
    ⟨c.hashOf c.parent, c.parent.header.number + 1, w.extra, tstamp, 0⟩
  if w.running ∧ w.coinbase = 0 then
    (w, { tr0 with refusedNoCoinbase := true })
  else
    let header :=
      if w.running then { header0 with coinbase := w.coinbase } else header0
    let tr1 := { tr0 with prepareCalled := true, headerBuilt := some header }
    match c.prepare header with
    | some _ => (w, { tr1 with prepareFailed := true })
    | none =>
      let w1 := makeCurrent w header
      let tr2 := { tr1 with madeCurrent := true }
      let w2 := if noempty then w1 else (commit c w1 false).1
      let tr3 := { tr2 with emptyCommitRan := !noempty }
      match c.pending with
      | Except.error _ => (w2, { tr3 with pendingFailed := true })
      | Except.ok pend =>
        if pend.isEmpty then
          (updateSnapshot w2, { tr3 with pendingEmpty := true })
        else
          let q := newTxsByPriceAndNonce pend
          let r := commitTransactions w2.current q w.coinbase intr
          let w3 := { w2 with current := r.current }
          let tr4 := { tr3 with txEngineRan := true, txAborted := r.aborted,
                                txIters := r.iters }
          if r.aborted then (w3, tr4)
          else ((commit c w3 true).1, { tr4 with fullCommitRan := true })

/-- Group newly arrived pool transactions by resolved sender, preserving
arrival order within a sender and first-appearance order of senders
(the Go loop appends tx to txs[acc]). -/
def groupBySender (signer : Signer) (txs : List Transaction) :
    List (Address × List Transaction) :=
  txs.foldl
    (fun acc tx =>
      if acc.any (fun g => g.1 = signer tx) then
        acc.map (fun g => if g.1 = signer tx then (g.1, g.2 ++ [tx]) else g)
      else acc ++ [(signer tx, [tx])])
    []

/-- The new-transactions branch of mainLoop: only when sealing is inactive
and an environment exists, partition the arrivals by sender, order them by
price and nonce, run the commit engine with a nil interrupt, and republish
the snapshot. -/
def mainLoopTxsEvent (w : Worker) (evTxs : List Transaction) :
    Worker :=
  if w.running = false then
    match w.current with
    | some env =>
      let q := newTxsByPriceAndNonce (groupBySender env.signer evTxs)
      let r := commitTransactions (some env) q w.coinbase none
      updateSnapshot { w with current := r.current }
    | none => w
  else w

/-- C1: For every run of commitTransactions with a non-null Interrupt Signal
and a present Build Environment: the run stops at the first poll whose
observed value is not none (every earlier poll observed none), returns true
exactly when the observed reason is new-head (false for resubmit or any
other reason), and never consumes a further transaction after observing the
non-none value (total consumption is bounded by the number of completed
iterations before the final poll). -/
theorem commitTransactions_abort_semantics (env : Environment) (q : TxQ)
    (cb : Address) (f : Nat → Nat) :
    1 ≤ (commitTransactions (some env) q cb (some f)).iters ∧
      (∀ j, j + 1 < (commitTransactions (some env) q cb (some f)).iters →
        f j = commitInterruptNone) ∧
      ((commitTransactions (some env) q cb (some f)).aborted = true ↔
        f ((commitTransactions (some env) q cb (some f)).iters - 1) =
          commitInterruptNewHead) ∧
      ∀ env',
        (commitTransactions (some env) q cb (some f)).current = some env' →
          env'.txs.length + 1 ≤
            env.txs.length +
              (commitTransactions (some env) q cb (some f)).iters := by
  have hp := ctLoop_polls f cb env q 0
  have hl := ctLoop_iters_lower (some f) cb env q 0
  simp only [commitTransactions]
  obtain ⟨h1, h2, h3⟩ := hp
  refine ⟨by omega, fun j hj => h1 j (Nat.zero_le j) hj, h2, ?_⟩
  intro env' henv
  simp only [Option.some_inj] at henv
  subst henv
  omega

/-- C1 witness: a concrete run whose first poll observes resubmit stops at
once with the keep indicator. -/
theorem commitTransactions_abort_semantics_witness :
    (commitTransactions
        (some ⟨masterSigner, 0, ⟨0, 1, [], 5, 0⟩, []⟩)
        [[⟨1, 0, 7, false⟩]] 0
        (some (fun i => if i = 0 then 2 else 0))).aborted = true ↔
      (fun i => if i = 0 then 2 else 0)
          ((commitTransactions
            (some ⟨masterSigner, 0, ⟨0, 1, [], 5, 0⟩, []⟩)
            [[⟨1, 0, 7, false⟩]] 0
            (some (fun i => if i = 0 then 2 else 0))).iters - 1) =
        commitInterruptNewHead :=
  (commitTransactions_abort_semantics
    ⟨masterSigner, 0, ⟨0, 1, [], 5, 0⟩, []⟩
    [[⟨1, 0, 7, false⟩]] 0
    (fun i => if i = 0 then 2 else 0)).2.2.1

/-- C3: Invoking commitTransactions twice in sequence against the same
Build Environment and the same (consumed-in-place) pending-transaction
source never re-includes a transaction: if environment plus candidate
source initially contain no duplicate, the environment's transaction list
after the second run has no transaction twice. The interrupt signals of the
two runs are arbitrary. -/
theorem commitTransactions_idempotent_append (env : Environment) (q : TxQ)
    (cb : Address) (i1 i2 : Option (Nat → Nat))
    (hnd : (env.txs ++ q.flatten).Nodup) :
    ∀ env2,
      (commitTransactions
          (commitTransactions (some env) q cb i1).current
          (commitTransactions (some env) q cb i1).txq cb i2).current =
        some env2 →
      env2.txs.Nodup := by
  intro env2 h2
  have hc1 := fun a => ctLoop_count i1 cb env q 0 a
  simp only [commitTransactions] at h2 ⊢
  have hc2 := fun a =>
    ctLoop_count i2 cb (ctLoop i1 cb env q 0).env
      (ctLoop i1 cb env q 0).txq 0 a
  simp only [Option.some_inj] at h2
  rw [List.nodup_iff_count_le_one] at hnd ⊢
  intro a
  have hna := hnd a
  rw [List.count_append] at hna
  have h1a := hc1 a
  have h2a := hc2 a
  rw [← h2] at *
  omega

/-- C3 witness: two sequential runs over a two-sender source starting from
an empty environment leave no duplicate in the transaction list. -/
theorem commitTransactions_idempotent_append_witness :
    ((⟨masterSigner, 0, ⟨0, 1, [], 5, 0⟩,
        ([] : List Transaction)⟩ : Environment).txs ++
        ([[⟨1, 0, 7, false⟩], [⟨2, 0, 9, false⟩]] : TxQ).flatten).Nodup ∧
      ∀ env2,
        (commitTransactions
            (commitTransactions
              (some ⟨masterSigner, 0, ⟨0, 1, [], 5, 0⟩, []⟩)
              [[⟨1, 0, 7, false⟩], [⟨2, 0, 9, false⟩]] 0 none).current
            (commitTransactions
              (some ⟨masterSigner, 0, ⟨0, 1, [], 5, 0⟩, []⟩)
              [[⟨1, 0, 7, false⟩], [⟨2, 0, 9, false⟩]] 0 none).txq
            0 none).current = some env2 →
        env2.txs.Nodup :=
  ⟨by decide,
    commitTransactions_idempotent_append
      ⟨masterSigner, 0, ⟨0, 1, [], 5, 0⟩, []⟩
      [[⟨1, 0, 7, false⟩], [⟨2, 0, 9, false⟩]] 0 none none (by decide)⟩

/-- C7: On a new-transactions event, mainLoop touches the pending state only
when sealing is inactive and an environment exists: in that case it groups
the arrivals by sender, orders them by the price-and-nonce merge, runs the
commit engine with a nil interrupt — a run that is never canceled (it
reports false and exhausts the candidate source) — and republishes the
snapshot; if sealing is active or no environment exists, the worker
(environment and snapshot included) is unchanged. -/
theorem mainLoop_txs_event (w : Worker) (evTxs : List Transaction) :
    ((w.running = true ∨ w.current = none) →
        mainLoopTxsEvent w evTxs = w) ∧
      ∀ env, w.running = false → w.current = some env →
        (mainLoopTxsEvent w evTxs =
            updateSnapshot
              { w with
                current :=
                  (commitTransactions (some env)
                      (newTxsByPriceAndNonce (groupBySender env.signer evTxs))
                      w.coinbase none).current }) ∧
          (commitTransactions (some env)
              (newTxsByPriceAndNonce (groupBySender env.signer evTxs))
              w.coinbase none).aborted = false ∧
          txqPeek
              (commitTransactions (some env)
                (newTxsByPriceAndNonce (groupBySender env.signer evTxs))
                w.coinbase none).txq = none := by
  constructor
  · intro h
    rcases h with h | h
    · simp [mainLoopTxsEvent, h]
    · cases hr : w.running
      · simp [mainLoopTxsEvent, hr, h]
      · simp [mainLoopTxsEvent, hr]
  · intro env hr hcur
    have hni := ctLoop_no_interrupt w.coinbase env
      (newTxsByPriceAndNonce (groupBySender env.signer evTxs)) 0
    refine ⟨?_, ?_, ?_⟩
    · simp [mainLoopTxsEvent, hr, hcur]
    · simpa [commitTransactions] using hni.1
    · simpa [commitTransactions, txqPeek] using hni.2

/-- C7 witness: with sealing active the event is a no-op, and with sealing
inactive on a concrete environment the uncancelable run reports false. -/
theorem mainLoop_txs_event_witness :
    (mainLoopTxsEvent
        ⟨true, 3, [], some ⟨masterSigner, 0, ⟨0, 1, [], 5, 0⟩, []⟩, none,
          [], []⟩ [⟨1, 0, 7, false⟩] =
      ⟨true, 3, [], some ⟨masterSigner, 0, ⟨0, 1, [], 5, 0⟩, []⟩, none,
        [], []⟩) ∧
      (commitTransactions
          (some ⟨masterSigner, 0, ⟨0, 1, [], 5, 0⟩, []⟩)
          (newTxsByPriceAndNonce
            (groupBySender masterSigner [⟨1, 0, 7, false⟩]))
          3 none).aborted = false :=
  ⟨(mainLoop_txs_event
      ⟨true, 3, [], some ⟨masterSigner, 0, ⟨0, 1, [], 5, 0⟩, []⟩, none,
        [], []⟩ [⟨1, 0, 7, false⟩]).1 (Or.inl rfl),
    ((mainLoop_txs_event
        ⟨false, 3, [], some ⟨masterSigner, 0, ⟨0, 1, [], 5, 0⟩, []⟩, none,
          [], []⟩ [⟨1, 0, 7, false⟩]).2
      ⟨masterSigner, 0, ⟨0, 1, [], 5, 0⟩, []⟩ rfl rfl).2.1⟩

/-- C8: If the consensus engine's Finalize fails inside commit, the publish
attempt aborts atomically: the error is returned (recoverable), no task is
handed to the sealing loop, the confirmation tracker is not shifted, the
snapshot is not updated, and the worker state is entirely unchanged. -/
theorem commit_finalize_failure (c : Ctx) (w : Worker) (update : Bool)
    (env : Environment) (err : String)
    (hcur : w.current = some env)
    (hfin : c.finalizeErr env.header env.txs = some err) :
    commit c w update = (w, some err) := by
  simp [commit, hcur, hfin]

/-- C8 witness: a concrete failing Finalize leaves a concrete worker
untouched and surfaces the error. -/
theorem commit_finalize_failure_witness :
    commit
        ⟨⟨⟨0, 0, [], 0, 0⟩, []⟩, 0, 0, fun _ => 0, fun _ => none,
          fun _ _ => some "finalize failed", Except.ok []⟩
        ⟨true, 3, [], some ⟨masterSigner, 0, ⟨0, 1, [], 5, 0⟩, []⟩, none,
          [], []⟩ true =
      (⟨true, 3, [], some ⟨masterSigner, 0, ⟨0, 1, [], 5, 0⟩, []⟩, none,
        [], []⟩, some "finalize failed") :=
  commit_finalize_failure
    ⟨⟨⟨0, 0, [], 0, 0⟩, []⟩, 0, 0, fun _ => 0, fun _ => none,
      fun _ _ => some "finalize failed", Except.ok []⟩
    ⟨true, 3, [], some ⟨masterSigner, 0, ⟨0, 1, [], 5, 0⟩, []⟩, none,
      [], []⟩ true ⟨masterSigner, 0, ⟨0, 1, [], 5, 0⟩, []⟩
    "finalize failed" rfl rfl

/-- updateSnapshot touches only the snapshot field. -/
theorem updateSnapshot_preserves (w : Worker) :
    (updateSnapshot w).running = w.running ∧
      (updateSnapshot w).coinbase = w.coinbase ∧
      (updateSnapshot w).extra = w.extra ∧
      (updateSnapshot w).current = w.current ∧
      (updateSnapshot w).tasksSent = w.tasksSent ∧
      (updateSnapshot w).shifts = w.shifts := by
  simp only [updateSnapshot]
  split <;> exact ⟨rfl, rfl, rfl, rfl, rfl, rfl⟩

/-- Effects of commit: configuration and environment are untouched; without
update the snapshot is untouched; at most one task is appended; with the
engine stopped nothing is sent or shifted; and any task present afterwards
was either already there or is the finalized current environment, sent only
while running. -/
theorem commit_effects (c : Ctx) (w : Worker) (u : Bool) :
    (commit c w u).1.running = w.running ∧
      (commit c w u).1.coinbase = w.coinbase ∧
      (commit c w u).1.extra = w.extra ∧
      (commit c w u).1.current = w.current ∧
      (u = false → (commit c w u).1.snapshotBlock = w.snapshotBlock) ∧
      (commit c w u).1.tasksSent.length ≤ w.tasksSent.length + 1 ∧
      (w.running = false → (commit c w u).1.tasksSent = w.tasksSent ∧
        (commit c w u).1.shifts = w.shifts) ∧
      ∀ b ∈ (commit c w u).1.tasksSent,
        b ∈ w.tasksSent ∨
          (w.running = true ∧ ∃ env, w.current = some env ∧
            b = Block.mk env.header env.txs) := by
  simp only [commit]
  repeat' split
  all_goals
    refine ⟨?_, ?_, ?_, ?_, ?_, ?_, ?_, ?_⟩ <;>
      first
        | rfl
        | (intro hu; first | rfl | simp_all [updateSnapshot_preserves])
        | simp_all [updateSnapshot_preserves]
        | (intro b hb
           simp_all only [updateSnapshot_preserves]
           rcases List.mem_append.1 hb with hb | hb
           · exact Or.inl hb
           · simp only [List.mem_singleton] at hb
             subst hb
             exact Or.inr (by simp_all))

/-- C4: The candidate timestamp commitNewWork computes equals
max(wall clock, parent timestamp + 1); in particular when the parent
timestamp is at least now it is parent + 1. If the candidate exceeds the
(re-read) wall clock by more than one second, a bounded positive wait is
taken before building the header, whose time field is the candidate
timestamp. -/
theorem commitNewWork_timestamp (c : Ctx) (w : Worker)
    (intr : Option (Nat → Nat)) (ne : Bool) :
    (commitNewWork c w intr ne).2.tstamp =
        max c.nowUnix (c.parent.header.time + 1) ∧
      (c.nowUnix ≤ c.parent.header.time →
        (commitNewWork c w intr ne).2.tstamp = c.parent.header.time + 1) ∧
      ((commitNewWork c w intr ne).2.tstamp > c.now2 + 1 →
        (commitNewWork c w intr ne).2.slept =
            some ((commitNewWork c w intr ne).2.tstamp - c.now2) ∧
          0 < (commitNewWork c w intr ne).2.tstamp - c.now2) ∧
      ∀ h, (commitNewWork c w intr ne).2.headerBuilt = some h →
        h.time = (commitNewWork c w intr ne).2.tstamp := by
  simp only [commitNewWork, baseTrace]
  repeat' split
  all_goals dsimp only
  all_goals
    refine ⟨by omega, fun hle => by omega, fun hgt => ?_, fun h hh => ?_⟩
  all_goals
    first
    | exact ⟨rfl, by omega⟩
    | exact absurd hgt (by omega)
    | exact Option.noConfusion hh
    | (cases hh; rfl)

/-- C4 witness: a parent one second ahead of the clock forces candidate
timestamp parent + 1 and a recorded two-second wait. -/
theorem commitNewWork_timestamp_witness :
    ((10 : Int) ≤ 11 →
      (commitNewWork
          ⟨⟨⟨0, 0, [], 11, 0⟩, []⟩, 10, 10, fun _ => 0, fun _ => none,
            fun _ _ => none, Except.ok []⟩
          ⟨false, 0, [], none, none, [], []⟩ none false).2.tstamp =
        (11 : Int) + 1) :=
  (commitNewWork_timestamp
    ⟨⟨⟨0, 0, [], 11, 0⟩, []⟩, 10, 10, fun _ => 0, fun _ => none,
      fun _ _ => none, Except.ok []⟩
    ⟨false, 0, [], none, none, [], []⟩ none false).2.1

/-- C5: The header coinbase is set only while sealing is active; and an
active-sealing cycle with an unconfigured (zero) coinbase is refused before
the consensus engine is invoked: the worker is returned unchanged, Prepare
is not called, no header is handed out, no environment is installed, and no
commit runs. -/
theorem commitNewWork_coinbase_guard (c : Ctx) (w : Worker)
    (intr : Option (Nat → Nat)) (ne : Bool) :
    (∀ h, (commitNewWork c w intr ne).2.headerBuilt = some h →
        h.coinbase = if w.running = true then w.coinbase else 0) ∧
      (w.running = true → w.coinbase = 0 →
        (commitNewWork c w intr ne).1 = w ∧
          (commitNewWork c w intr ne).2.refusedNoCoinbase = true ∧
          (commitNewWork c w intr ne).2.prepareCalled = false ∧
          (commitNewWork c w intr ne).2.headerBuilt = none ∧
          (commitNewWork c w intr ne).2.madeCurrent = false ∧
          (commitNewWork c w intr ne).2.emptyCommitRan = false ∧
          (commitNewWork c w intr ne).2.txEngineRan = false ∧
          (commitNewWork c w intr ne).2.fullCommitRan = false) := by
  constructor
  · simp only [commitNewWork, baseTrace]
    repeat' split
    all_goals dsimp only
    all_goals intro h hh
    all_goals
      first
      | exact Option.noConfusion hh
      | (cases hh; rfl)
      | (cases hh; simp_all)
  · intro hrun hcb
    simp only [commitNewWork, baseTrace, hrun, hcb]
    simp

/-- C5 witness: a running worker with zero coinbase is refused with state
unchanged. -/
theorem commitNewWork_coinbase_guard_witness :
    (commitNewWork
        ⟨⟨⟨0, 0, [], 0, 0⟩, []⟩, 10, 10, fun _ => 0, fun _ => none,
          fun _ _ => none, Except.ok []⟩
        ⟨true, 0, [], none, none, [], []⟩ none false).1 =
        ⟨true, 0, [], none, none, [], []⟩ ∧
      (commitNewWork
        ⟨⟨⟨0, 0, [], 0, 0⟩, []⟩, 10, 10, fun _ => 0, fun _ => none,
          fun _ _ => none, Except.ok []⟩
        ⟨true, 0, [], none, none, [], []⟩ none false).2.refusedNoCoinbase =
        true :=
  let h := (commitNewWork_coinbase_guard
    ⟨⟨⟨0, 0, [], 0, 0⟩, []⟩, 10, 10, fun _ => 0, fun _ => none,
      fun _ _ => none, Except.ok []⟩
    ⟨true, 0, [], none, none, [], []⟩ none false).2 rfl rfl
  ⟨h.1, h.2.1⟩

/-- C2: Whenever the commit engine ran inside commitNewWork, a new-head
abort (engine returned true) stops the cycle: no full commit runs, the
snapshot is untouched, and with the empty fast path suppressed no task at
all was sent (in general at most the one empty fast-path task); in every
other case (resubmit interruption included) the cycle finalizes and
publishes via the full commit. -/
theorem commitNewWork_abort_vs_publish (c : Ctx) (w : Worker)
    (intr : Option (Nat → Nat)) (ne : Bool) :
    (commitNewWork c w intr ne).2.txEngineRan = true →
      ((commitNewWork c w intr ne).2.txAborted = true ↔
        (commitNewWork c w intr ne).2.fullCommitRan = false) ∧
      ((commitNewWork c w intr ne).2.txAborted = true →
        (commitNewWork c w intr ne).1.snapshotBlock = w.snapshotBlock ∧
          (ne = true → (commitNewWork c w intr ne).1.tasksSent = w.tasksSent ∧
            (commitNewWork c w intr ne).1.shifts = w.shifts) ∧
          (commitNewWork c w intr ne).1.tasksSent.length ≤
            w.tasksSent.length + (if ne = true then 0 else 1)) := by
  cases ne with
  | true =>
    simp only [commitNewWork, baseTrace, if_true]
    repeat' split
    all_goals dsimp only
    all_goals intro htr
    all_goals
      first
      | exact Bool.noConfusion htr
      | (refine ⟨?_, fun hab => absurd hab ?_⟩ <;> simp_all
         done)
      | (refine ⟨?_, fun hab => ⟨rfl, fun _ => ⟨rfl, rfl⟩, ?_⟩⟩ <;>
           simp_all [makeCurrent]
         done)
  | false =>
    simp only [commitNewWork, baseTrace]
    repeat' split
    all_goals dsimp only
    all_goals intro htr
    all_goals
      first
      | exact Bool.noConfusion htr
      | (refine ⟨?_, fun hab => absurd hab ?_⟩ <;> simp_all
         done)
      | (refine ⟨?_, fun hab =>
            ⟨(commit_effects _ _ _).2.2.2.2.1 rfl,
              fun hne => Bool.noConfusion hne, ?_⟩⟩ <;>
          first
          | (simp_all
             done)
          | simpa [makeCurrent] using (commit_effects _ _ _).2.2.2.2.2.1)

/-- Path lemma: the commit engine runs inside commitNewWork whenever the
coinbase guard does not refuse, Prepare succeeds, and the pending fetch
yields a nonempty group list. -/
theorem commitNewWork_engine_ran (c : Ctx) (w : Worker)
    (intr : Option (Nat → Nat)) (ne : Bool)
    (h1 : ¬(w.running = true ∧ w.coinbase = 0))
    (h2 : ∀ hdr, c.prepare hdr = none)
    (h3 : ∃ pend, c.pending = Except.ok pend ∧ pend ≠ []) :
    (commitNewWork c w intr ne).2.txEngineRan = true := by
  obtain ⟨pend, hp, hne⟩ := h3
  simp only [commitNewWork, baseTrace]
  repeat' split
  all_goals dsimp only
  all_goals first
    | rfl
    | simp_all

/-- C2 witness: a concrete run whose interrupt signals new-head at the first
poll aborts without a full commit. -/
theorem commitNewWork_abort_vs_publish_witness :
    (commitNewWork
        ⟨⟨⟨0, 0, [], 0, 0⟩, []⟩, 10, 10, fun _ => 0, fun _ => none,
          fun _ _ => none, Except.ok [(1, [⟨1, 0, 7, false⟩])]⟩
        ⟨false, 0, [], none, none, [], []⟩ (some fun _ => 1) true).2.txEngineRan =
        true ∧
      ((commitNewWork
          ⟨⟨⟨0, 0, [], 0, 0⟩, []⟩, 10, 10, fun _ => 0, fun _ => none,
            fun _ _ => none, Except.ok [(1, [⟨1, 0, 7, false⟩])]⟩
          ⟨false, 0, [], none, none, [], []⟩ (some fun _ => 1) true).2.txAborted =
          true ↔
        (commitNewWork
          ⟨⟨⟨0, 0, [], 0, 0⟩, []⟩, 10, 10, fun _ => 0, fun _ => none,
            fun _ _ => none, Except.ok [(1, [⟨1, 0, 7, false⟩])]⟩
          ⟨false, 0, [], none, none, [], []⟩ (some fun _ => 1) true).2.fullCommitRan =
          false) :=
  ⟨commitNewWork_engine_ran
      ⟨⟨⟨0, 0, [], 0, 0⟩, []⟩, 10, 10, fun _ => 0, fun _ => none,
        fun _ _ => none, Except.ok [(1, [⟨1, 0, 7, false⟩])]⟩
      ⟨false, 0, [], none, none, [], []⟩ (some fun _ => 1) true
      (by simp) (fun _ => rfl) ⟨[(1, [⟨1, 0, 7, false⟩])], rfl, by simp⟩,
    (commitNewWork_abort_vs_publish
      ⟨⟨⟨0, 0, [], 0, 0⟩, []⟩, 10, 10, fun _ => 0, fun _ => none,
        fun _ _ => none, Except.ok [(1, [⟨1, 0, 7, false⟩])]⟩
      ⟨false, 0, [], none, none, [], []⟩ (some fun _ => 1) true
      (commitNewWork_engine_ran
        ⟨⟨⟨0, 0, [], 0, 0⟩, []⟩, 10, 10, fun _ => 0, fun _ => none,
          fun _ _ => none, Except.ok [(1, [⟨1, 0, 7, false⟩])]⟩
        ⟨false, 0, [], none, none, [], []⟩ (some fun _ => 1) true
        (by simp) (fun _ => rfl)
        ⟨[(1, [⟨1, 0, 7, false⟩])], rfl, by simp⟩)).1⟩

theorem updateSnapshot_tasksSent (w : Worker) :
    (updateSnapshot w).tasksSent = w.tasksSent :=
  (updateSnapshot_preserves w).2.2.2.2.1

theorem commit_running (c : Ctx) (w : Worker) (u : Bool) :
    (commit c w u).1.running = w.running :=
  (commit_effects c w u).1

theorem commit_current (c : Ctx) (w : Worker) (u : Bool) :
    (commit c w u).1.current = w.current :=
  (commit_effects c w u).2.2.2.1

theorem commit_tasks_sub (c : Ctx) (w : Worker) (u : Bool) :
    ∀ b ∈ (commit c w u).1.tasksSent,
      b ∈ w.tasksSent ∨
        (w.running = true ∧ ∃ env, w.current = some env ∧
          b = Block.mk env.header env.txs) :=
  (commit_effects c w u).2.2.2.2.2.2.2

set_option maxHeartbeats 2000000 in
/-- Any task present after a commitNewWork run was either already present
before it, or was produced by this run while sealing was active with a
nonzero configured coinbase, and carries that coinbase. -/
theorem commitNewWork_new_tasks (c : Ctx) (w : Worker)
    (intr : Option (Nat → Nat)) (ne : Bool) :
    ∀ b ∈ (commitNewWork c w intr ne).1.tasksSent,
      b ∈ w.tasksSent ∨
        (w.running = true ∧ w.coinbase ≠ 0 ∧
          b.header.coinbase = w.coinbase) := by
  cases ne
  all_goals
    simp only [commitNewWork, baseTrace, eq_self_iff_true, if_true,
      Bool.false_eq_true, if_false]
    repeat' split
  all_goals try dsimp only
  all_goals intro b hb
  all_goals
    first
    | exact Or.inl hb
    | (try rw [updateSnapshot_tasksSent] at hb
       rcases commit_tasks_sub _ _ _ b hb with hmem | ⟨hrun1, env, hcur, hbeq⟩
       · first
         | exact Or.inl hmem
         | (rcases commit_tasks_sub _ _ _ b hmem with
              hmem2 | ⟨hrun2, env2, hcur2, hbeq2⟩
            · exact Or.inl hmem2
            · try simp only [commit_running] at hrun2
              try simp only [commit_current] at hcur2
              dsimp only [makeCurrent] at hrun2 hcur2
              try simp only [commitTransactions, Option.some_inj] at hcur2
              subst hcur2
              subst hbeq2
              refine Or.inr ⟨hrun2, fun hc0 => by simp_all, ?_⟩
              try dsimp only
              try rw [(ctLoop_preserves _ _ _ _).1]
              try rfl
              try simp_all
              done)
       · try simp only [commit_running] at hrun1
         try simp only [commit_current] at hcur
         dsimp only [makeCurrent] at hrun1 hcur
         try simp only [commitTransactions, Option.some_inj] at hcur
         subst hcur
         subst hbeq
         refine Or.inr ⟨hrun1, fun hc0 => by simp_all, ?_⟩
         try dsimp only
         try rw [(ctLoop_preserves _ _ _ _).1]
         try rfl
         try simp_all
         done)

/-- C10: The all-zero address is indistinguishable from an unconfigured
coinbase: setting the coinbase to zero leaves commitNewWork literally the
same function application as a never-configured (zero-valued) coinbase; a
sealing-active cycle after setCoinbase(0) is refused with the worker
unchanged; and any task a run ever hands to the sealing loop beyond those
already present was produced while sealing with the configured, nonzero
coinbase in its header. -/
theorem setCoinbase_zero_guard (c : Ctx) (w : Worker)
    (intr : Option (Nat → Nat)) (ne : Bool) :
    (commitNewWork c (setCoinbase w 0) intr ne =
        commitNewWork c { w with coinbase := 0 } intr ne) ∧
      (w.running = true →
        (commitNewWork c (setCoinbase w 0) intr ne).1 = setCoinbase w 0 ∧
          (commitNewWork c (setCoinbase w 0) intr ne).2.refusedNoCoinbase =
            true) ∧
      ∀ b ∈ (commitNewWork c w intr ne).1.tasksSent, b ∉ w.tasksSent →
        w.running = true ∧ b.header.coinbase = w.coinbase ∧ w.coinbase ≠ 0 := by
  refine ⟨rfl, fun hrun => ?_, fun b hb hnb => ?_⟩
  · constructor
    · simp [commitNewWork, setCoinbase, baseTrace, hrun]
    · simp [commitNewWork, setCoinbase, baseTrace, hrun]
  · rcases commitNewWork_new_tasks c w intr ne b hb with hmem | ⟨h1, h2, h3⟩
    · exact absurd hmem hnb
    · exact ⟨h1, h3, h2⟩

/-- C10 witness: a concrete running worker, its coinbase set to zero, has
its cycle refused with nothing changed. -/
theorem setCoinbase_zero_guard_witness :
    (commitNewWork
          ⟨⟨⟨0, 0, [], 0, 0⟩, []⟩, 10, 10, fun _ => 0, fun _ => none,
            fun _ _ => none, Except.ok []⟩
          (setCoinbase ⟨true, 5, [], none, none, [], []⟩ 0) none false).1 =
        setCoinbase ⟨true, 5, [], none, none, [], []⟩ 0 ∧
      (commitNewWork
          ⟨⟨⟨0, 0, [], 0, 0⟩, []⟩, 10, 10, fun _ => 0, fun _ => none,
            fun _ _ => none, Except.ok []⟩
          (setCoinbase ⟨true, 5, [], none, none, [], []⟩ 0) none
          false).2.refusedNoCoinbase = true :=
  (setCoinbase_zero_guard
    ⟨⟨⟨0, 0, [], 0, 0⟩, []⟩, 10, 10, fun _ => 0, fun _ => none,
      fun _ _ => none, Except.ok []⟩
    ⟨true, 5, [], none, none, [], []⟩ none false).2.1 rfl

/-- Events the newWorkLoop waits on: start/restart, a new chain head, the
recommit timer, and shutdown. -/
inductive WEvent
  | startEv
  | chainHeadEv
  | timerEv
  | exitEv
deriving DecidableEq

/-- State of the newWorkLoop goroutine: the allocation counter for interrupt
signals, the value store of every allocated signal (indexed by id, all
initially none), the remembered current signal, the rebuild requests issued
so far (signal id, noempty flag), and whether the loop has returned. -/
structure Sched where
  nextId : Nat
  vals : Nat → Nat
  cur : Option Nat
  issued : List (Nat × Bool)
  stopped : Bool

/-- The loop's initial state: no signal allocated, none issued. -/
def initSched : Sched :=
  ⟨0, fun _ => commitInterruptNone, none, [], false⟩

/-- recommit: stamp the remembered signal with the abort reason, then
allocate a brand-new signal (value none), send the request, and remember
the new signal as current. -/
def recommit (s : Sched) (noempty : Bool) (v : Nat) : Sched :=
  let vals1 :=
    match s.cur with
    | some i => fun j => if j = i then v else s.vals j
    | none => s.vals
  { nextId := s.nextId + 1,
    vals := fun j => if j = s.nextId then commitInterruptNone else vals1 j,
    cur := some s.nextId,
    issued := s.issued ++ [(s.nextId, noempty)],
    stopped := s.stopped }

/-- The abort reason a newWorkLoop event stamps on the previous signal. -/
def eventReason : WEvent → Nat
  | .startEv => commitInterruptNewHead
  | .chainHeadEv => commitInterruptNewHead
  | .timerEv => commitInterruptResubmit
  | .exitEv => commitInterruptNone

/-- One iteration of the newWorkLoop select: start and chain-head events
recommit with reason new-head and noempty = false; a timer tick recommits
with reason resubmit and noempty = true only while sealing is running;
shutdown stops the loop. running is the isRunning value read atomically at
the event. -/
def schedStep (s : Sched) (e : WEvent) (running : Bool) : Sched :=
  if s.stopped then s
  else
    match e with
    | .startEv => recommit s false commitInterruptNewHead
    | .chainHeadEv => recommit s false commitInterruptNewHead
    | .timerEv =>
      if running then recommit s true commitInterruptResubmit else s
    | .exitEv => { s with stopped := true }

/-- Run the newWorkLoop over a sequence of events, each paired with the
isRunning value observed at that event. -/
def schedRun (evs : List (WEvent × Bool)) (s : Sched) : Sched :=
  evs.foldl (fun s p => schedStep s p.1 p.2) s

/-- Scheduler invariant: issued signal ids are below the allocation counter
and pairwise distinct, and the remembered signal is allocated. -/
def schedInv (s : Sched) : Prop :=
  (∀ p ∈ s.issued, p.1 < s.nextId) ∧
    (s.issued.map Prod.fst).Nodup ∧
    ∀ i, s.cur = some i → i < s.nextId

theorem initSched_inv : schedInv initSched := by
  refine ⟨?_, ?_, ?_⟩ <;> simp [initSched]

theorem recommit_inv {s : Sched} (noempty : Bool) (v : Nat)
    (h : schedInv s) : schedInv (recommit s noempty v) := by
  obtain ⟨h1, h2, h3⟩ := h
  refine ⟨?_, ?_, ?_⟩
  · intro p hp
    simp only [recommit, List.mem_append, List.mem_singleton] at hp
    rcases hp with hp | hp
    · exact Nat.lt_succ_of_lt (h1 p hp)
    · subst hp; exact Nat.lt_succ_self _
  · simp only [recommit, List.map_append, List.map_cons, List.map_nil]
    rw [List.nodup_append]
    refine ⟨h2, by simp, ?_⟩
    intro a ha hb
    simp only [List.mem_singleton] at hb
    subst hb
    obtain ⟨p, hp, hpa⟩ := List.mem_map.1 ha
    exact absurd (h1 p hp) (by omega)
  · intro i hi
    simp only [recommit, Option.some_inj] at hi
    subst hi
    exact Nat.lt_succ_self _

theorem schedStep_inv {s : Sched} (e : WEvent) (r : Bool)
    (h : schedInv s) : schedInv (schedStep s e r) := by
  unfold schedStep
  split
  · exact h
  · cases e with
    | startEv => exact recommit_inv false commitInterruptNewHead h
    | chainHeadEv => exact recommit_inv false commitInterruptNewHead h
    | timerEv =>
      by_cases hr : r = true
      · simp only [hr, if_true]
        exact recommit_inv true commitInterruptResubmit h
      · simp only [Bool.not_eq_true] at hr
        simp only [hr, Bool.false_eq_true, if_false]
        exact h
    | exitEv => exact ⟨h.1, h.2.1, h.2.2⟩

theorem schedRun_inv (evs : List (WEvent × Bool)) {s : Sched}
    (h : schedInv s) : schedInv (schedRun evs s) := by
  induction evs generalizing s with
  | nil => exact h
  | cons p rest ih => exact ih (schedStep_inv p.1 p.2 h)

/-- What one recommit does, given the invariant: the remembered signal is
stamped with the reason and is distinct from the new one; the new signal is
allocated fresh (never issued before) with value none, remembered as
current, and sent with the request. -/
theorem recommit_spec (s : Sched) (hinv : schedInv s) (noempty : Bool)
    (v : Nat) :
    (∀ i, s.cur = some i → (recommit s noempty v).vals i = v ∧
        i ≠ s.nextId) ∧
      (recommit s noempty v).vals s.nextId = commitInterruptNone ∧
      (recommit s noempty v).cur = some s.nextId ∧
      s.nextId ∉ s.issued.map Prod.fst ∧
      (recommit s noempty v).issued = s.issued ++ [(s.nextId, noempty)] := by
  refine ⟨?_, ?_, rfl, ?_, rfl⟩
  · intro i hi
    have hlt := hinv.2.2 i hi
    refine ⟨?_, by omega⟩
    simp only [recommit, hi]
    rw [if_neg (by omega)]
    simp
  · simp [recommit]
  · intro hmem
    obtain ⟨p, hp, hpe⟩ := List.mem_map.1 hmem
    have := hinv.1 p hp
    omega

/-- C6: Along any run of the newWorkLoop, the issued rebuild requests carry
pairwise distinct (never reused) interrupt signals; whenever the next event
issues a request, the previously remembered signal (if any) is stamped with
the event's abort reason and is distinct from the new signal, which is
freshly allocated (never issued before), starts at value none, is handed
out with the request, and becomes the remembered one; and a timer expiry
while sealing is inactive issues nothing and changes nothing. -/
theorem newWorkLoop_signal_discipline (evs : List (WEvent × Bool))
    (e : WEvent) (r : Bool) :
    ((schedRun evs initSched).issued.map Prod.fst).Nodup ∧
      ((schedStep (schedRun evs initSched) e r).issued.length >
          (schedRun evs initSched).issued.length →
        (∀ i, (schedRun evs initSched).cur = some i →
          (schedStep (schedRun evs initSched) e r).vals i = eventReason e ∧
            i ≠ (schedRun evs initSched).nextId) ∧
          (schedStep (schedRun evs initSched) e r).vals
              (schedRun evs initSched).nextId = commitInterruptNone ∧
          (schedStep (schedRun evs initSched) e r).cur =
            some (schedRun evs initSched).nextId ∧
          (schedRun evs initSched).nextId ∉
            (schedRun evs initSched).issued.map Prod.fst ∧
          (schedStep (schedRun evs initSched) e r).issued =
            (schedRun evs initSched).issued ++
              [((schedRun evs initSched).nextId, decide (e = WEvent.timerEv))]) ∧
      (e = WEvent.timerEv → r = false →
        schedStep (schedRun evs initSched) e r = schedRun evs initSched) := by
  have hinv := schedRun_inv evs initSched_inv
  refine ⟨hinv.2.1, ?_, ?_⟩
  · intro hgrow
    by_cases hstop : (schedRun evs initSched).stopped = true
    · unfold schedStep at hgrow
      rw [if_pos hstop] at hgrow
      exact absurd hgrow (by omega)
    · cases e with
      | startEv =>
        have hs : schedStep (schedRun evs initSched) WEvent.startEv r =
            recommit (schedRun evs initSched) false
              commitInterruptNewHead := by
          unfold schedStep
          rw [if_neg hstop]
        rw [hs]
        have h := recommit_spec (schedRun evs initSched) hinv false
          commitInterruptNewHead
        exact ⟨h.1, h.2.1, h.2.2.1, h.2.2.2.1, h.2.2.2.2⟩
      | chainHeadEv =>
        have hs : schedStep (schedRun evs initSched) WEvent.chainHeadEv r =
            recommit (schedRun evs initSched) false
              commitInterruptNewHead := by
          unfold schedStep
          rw [if_neg hstop]
        rw [hs]
        have h := recommit_spec (schedRun evs initSched) hinv false
          commitInterruptNewHead
        exact ⟨h.1, h.2.1, h.2.2.1, h.2.2.2.1, h.2.2.2.2⟩
      | timerEv =>
        cases r with
        | false =>
          have hs : schedStep (schedRun evs initSched) WEvent.timerEv false =
              schedRun evs initSched := by
            unfold schedStep
            rw [if_neg hstop]
            simp
          rw [hs] at hgrow
          exact absurd hgrow (by omega)
        | true =>
          have hs : schedStep (schedRun evs initSched) WEvent.timerEv true =
              recommit (schedRun evs initSched) true
                commitInterruptResubmit := by
            unfold schedStep
            rw [if_neg hstop]
            simp
          rw [hs]
          have h := recommit_spec (schedRun evs initSched) hinv true
            commitInterruptResubmit
          exact ⟨h.1, h.2.1, h.2.2.1, h.2.2.2.1, h.2.2.2.2⟩
      | exitEv =>
        have hs : schedStep (schedRun evs initSched) WEvent.exitEv r =
            { schedRun evs initSched with stopped := true } := by
          unfold schedStep
          rw [if_neg hstop]
        rw [hs] at hgrow
        dsimp only at hgrow
        exact absurd hgrow (by omega)
  · intro he hr
    subst he; subst hr
    unfold schedStep
    split
    · rfl
    · simp

/-- C6 witness: after one start event, a timer tick with sealing inactive is
a no-op, and the single issued request's signal id list has no duplicate. -/
theorem newWorkLoop_signal_discipline_witness :
    ((schedRun [(WEvent.startEv, true)] initSched).issued.map
        Prod.fst).Nodup ∧
      schedStep (schedRun [(WEvent.startEv, true)] initSched)
          WEvent.timerEv false =
        schedRun [(WEvent.startEv, true)] initSched :=
  ⟨(newWorkLoop_signal_discipline [(WEvent.startEv, true)] WEvent.timerEv
      false).1,
    (newWorkLoop_signal_discipline [(WEvent.startEv, true)] WEvent.timerEv
      false).2.2 rfl rfl⟩

/-- Events the taskLoop waits on: a new sealing task or shutdown. -/
inductive TEvent
  | newTask
  | quitEv
deriving DecidableEq

/-- State of the taskLoop goroutine: the allocation counter for stop
channels, the held cancel channel of the in-flight seal attempt (nil when
idle), the channels that have been closed (fired), the seal attempts
launched so far (by their cancel-channel id, in order), and whether the
loop has returned. -/
structure SealState where
  nextCh : Nat
  stopCh : Option Nat
  closed : List Nat
  attempts : List Nat
  finished : Bool

/-- The loop's initial state: no channel allocated, nothing in flight. -/
def initSeal : SealState := ⟨0, none, [], [], false⟩

/-- interrupt: close the held stop channel, if any, and forget it. -/
def sealInterrupt (s : SealState) : SealState :=
  match s.stopCh with
  | some i => { s with closed := s.closed ++ [i], stopCh := none }
  | none => s

/-- One iteration of the taskLoop select: a new task first fires the held
cancel channel, then allocates a fresh one and launches the seal attempt
with it; shutdown fires the held channel and returns. -/
def taskStep (s : SealState) (e : TEvent) : SealState :=
  if s.finished then s
  else
    match e with
    | .newTask =>
      let s1 := sealInterrupt s
      { s1 with stopCh := some s1.nextCh, nextCh := s1.nextCh + 1,
                attempts := s1.attempts ++ [s1.nextCh] }
    | .quitEv => { sealInterrupt s with finished := true }

/-- Run the taskLoop over a sequence of events. -/
def taskRun (evs : List TEvent) (s : SealState) : SealState :=
  evs.foldl taskStep s

/-- Sealing-loop invariant: every launched attempt has its cancel channel
closed except possibly the held one; the held channel is unclosed, freshly
allocated, and belongs to the most recent attempt; closed channels are all
allocated. -/
def taskInv (s : SealState) : Prop :=
  (∀ i ∈ s.attempts, i ∈ s.closed ∨ s.stopCh = some i) ∧
    (∀ i, s.stopCh = some i →
      i ∉ s.closed ∧ s.attempts.getLast? = some i ∧ i < s.nextCh) ∧
    ∀ i ∈ s.closed, i < s.nextCh

theorem initSeal_inv : taskInv initSeal := by
  refine ⟨?_, ?_, ?_⟩ <;> simp [initSeal]

theorem taskStep_inv {s : SealState} (e : TEvent) (h : taskInv s) :
    taskInv (taskStep s e) := by
  obtain ⟨h1, h2, h3⟩ := h
  unfold taskStep
  split
  · exact ⟨h1, h2, h3⟩
  · cases e with
    | newTask =>
      cases hc : s.stopCh with
      | none =>
        simp only [sealInterrupt, hc, taskInv]
        try dsimp only
        refine ⟨?_, ?_, ?_⟩
        · intro i hi
          simp only [List.mem_append, List.mem_singleton] at hi
          rcases hi with hi | hi
          · rcases h1 i hi with hcl | hstop
            · exact Or.inl hcl
            · rw [hc] at hstop; exact Option.noConfusion hstop
          · exact Or.inr (by simp [hi])
        · intro i hi
          simp only [Option.some_inj] at hi
          subst hi
          refine ⟨fun hmem => absurd (h3 _ hmem) (by omega), ?_, by omega⟩
          simp
        · intro i hi
          exact Nat.lt_succ_of_lt (h3 i hi)
      | some j =>
        simp only [sealInterrupt, hc, taskInv]
        try dsimp only
        have hj := h2 j hc
        refine ⟨?_, ?_, ?_⟩
        · intro i hi
          simp only [List.mem_append, List.mem_singleton] at hi
          rcases hi with hi | hi
          · rcases h1 i hi with hcl | hstop
            · exact Or.inl (by simp [hcl])
            · rw [hc] at hstop
              simp only [Option.some_inj] at hstop
              subst hstop
              exact Or.inl (by simp)
          · exact Or.inr (by simp [hi])
        · intro i hi
          simp only [Option.some_inj] at hi
          subst hi
          refine ⟨?_, by simp, by omega⟩
          intro hmem
          simp only [List.mem_append, List.mem_singleton] at hmem
          rcases hmem with hmem | hmem
          · exact absurd (h3 _ hmem) (by omega)
          · omega
        · intro i hi
          simp only [List.mem_append, List.mem_singleton] at hi
          rcases hi with hi | hi
          · exact Nat.lt_succ_of_lt (h3 i hi)
          · subst hi; omega
    | quitEv =>
      cases hc : s.stopCh with
      | none =>
        simp only [sealInterrupt, hc, taskInv]
        try dsimp only
        refine ⟨?_, ?_, h3⟩
        · intro i hi
          rcases h1 i hi with hcl | hstop
          · exact Or.inl hcl
          · rw [hc] at hstop; exact Option.noConfusion hstop
        · intro i hi; exact Option.noConfusion hi
      | some j =>
        simp only [sealInterrupt, hc, taskInv]
        try dsimp only
        have hj := h2 j hc
        refine ⟨?_, ?_, ?_⟩
        · intro i hi
          rcases h1 i hi with hcl | hstop
          · exact Or.inl (by simp [hcl])
          · rw [hc] at hstop
            simp only [Option.some_inj] at hstop
            subst hstop
            exact Or.inl (by simp)
        · intro i hi; exact Option.noConfusion hi
        · intro i hi
          simp only [List.mem_append, List.mem_singleton] at hi
          rcases hi with hi | hi
          · exact h3 i hi
          · subst hi; omega

theorem taskRun_inv (evs : List TEvent) {s : SealState} (h : taskInv s) :
    taskInv (taskRun evs s) := by
  induction evs generalizing s with
  | nil => exact h
  | cons e rest ih => exact ih (taskStep_inv e h)

/-- C9: Along any run of the taskLoop, at most one cancel-signal is live:
every launched attempt's cancel channel is closed except possibly the held
one, which is unclosed and belongs to the latest attempt. On a new task
while an attempt is in flight, the held channel is fired and only then is a
fresh, unfired channel allocated for the new attempt; on shutdown any held
channel is fired, nothing is held, and the loop terminates. -/
theorem taskLoop_cancel_discipline (evs : List TEvent) (e : TEvent) :
    (∀ i ∈ (taskRun evs initSeal).attempts,
        i ∈ (taskRun evs initSeal).closed ∨
          (taskRun evs initSeal).stopCh = some i) ∧
      (∀ i, (taskRun evs initSeal).stopCh = some i →
        i ∉ (taskRun evs initSeal).closed ∧
          (taskRun evs initSeal).attempts.getLast? = some i) ∧
      ((taskRun evs initSeal).finished = false →
        (e = TEvent.newTask →
          (∀ i, (taskRun evs initSeal).stopCh = some i →
            i ∈ (taskStep (taskRun evs initSeal) e).closed ∧
              i ≠ (taskRun evs initSeal).nextCh) ∧
            (taskStep (taskRun evs initSeal) e).stopCh =
              some (taskRun evs initSeal).nextCh ∧
            (taskRun evs initSeal).nextCh ∉
              (taskStep (taskRun evs initSeal) e).closed ∧
            (taskStep (taskRun evs initSeal) e).attempts =
              (taskRun evs initSeal).attempts ++
                [(taskRun evs initSeal).nextCh]) ∧
        (e = TEvent.quitEv →
          (taskStep (taskRun evs initSeal) e).finished = true ∧
            (taskStep (taskRun evs initSeal) e).stopCh = none ∧
            ∀ i, (taskRun evs initSeal).stopCh = some i →
              i ∈ (taskStep (taskRun evs initSeal) e).closed)) := by
  have hinv := taskRun_inv evs initSeal_inv
  obtain ⟨h1, h2, h3⟩ := hinv
  refine ⟨h1, fun i hi => ⟨(h2 i hi).1, (h2 i hi).2.1⟩, ?_⟩
  intro hfin
  constructor
  · intro he
    subst he
    unfold taskStep
    rw [if_neg (by simp [hfin])]
    cases hc : (taskRun evs initSeal).stopCh with
    | none =>
      simp only [sealInterrupt, hc]
      try dsimp only
      refine ⟨?_, by simp, ?_, by simp⟩
      · intro i hi
        exact Option.noConfusion hi
      · intro hmem
        exact absurd (h3 _ hmem) (by omega)
    | some j =>
      have hj := h2 j hc
      simp only [sealInterrupt, hc]
      try dsimp only
      refine ⟨?_, by simp, ?_, by simp⟩
      · intro i hi
        simp only [Option.some_inj] at hi
        subst hi
        exact ⟨by simp, by omega⟩
      · intro hmem
        simp only [List.mem_append, List.mem_singleton] at hmem
        rcases hmem with hmem | hmem
        · exact absurd (h3 _ hmem) (by omega)
        · omega
  · intro he
    subst he
    unfold taskStep
    rw [if_neg (by simp [hfin])]
    cases hc : (taskRun evs initSeal).stopCh with
    | none =>
      simp only [sealInterrupt, hc]
      try dsimp only
      refine ⟨by simp, by simp, ?_⟩
      intro i hi
      exact Option.noConfusion hi
    | some j =>
      simp only [sealInterrupt, hc]
      try dsimp only
      refine ⟨by simp, by simp, ?_⟩
      intro i hi
      simp only [Option.some_inj] at hi
      subst hi
      simp

/-- C9 witness: after one task, a second task fires the first attempt's
cancel channel before launching, and shutdown terminates the loop. -/
theorem taskLoop_cancel_discipline_witness :
    ((taskRun [TEvent.newTask] initSeal).finished = false) ∧
      ((taskStep (taskRun [TEvent.newTask] initSeal) TEvent.newTask).stopCh =
        some (taskRun [TEvent.newTask] initSeal).nextCh) ∧
      (taskStep (taskRun [TEvent.newTask] initSeal)
          TEvent.quitEv).finished = true :=
  ⟨rfl,
    ((taskLoop_cancel_discipline [TEvent.newTask] TEvent.newTask).2.2 rfl).1
      rfl |>.2.1,
    ((taskLoop_cancel_discipline [TEvent.newTask] TEvent.quitEv).2.2 rfl).2
      rfl |>.1⟩

end Miner
